import Mathlib

/-!
Verification of the merge-sort library in `src/main.cpp` (namespace `sorting`,
class `MergeSort`).  The C-style array manipulated in place by the C++ code is
modelled as a `List α`; reads `arr[i]` become `List.getD i default` and writes
`arr[k] = v` become `List.set k v`.  The nullable raw pointer of the
pointer/length overloads is modelled as `Option (List α)`, and the
`std::invalid_argument` exception as the `Except` error `SortError.invalidArgument`.
Every loop of the C++ source is embedded as its own recursive function.
-/

set_option maxRecDepth 4000

namespace Sorting

variable {α : Type} [Inhabited α]

/-- Error raised by the pointer/length entry point (`std::invalid_argument`). -/
inductive SortError : Type
  | invalidArgument : SortError
deriving DecidableEq

namespace MergeSort

/-- The buffer-filling copy loops of `MergeSort::merge`
(`for i in [0, n): buf[i] = arr[start + i]`), building the temporary buffer. -/
def readSlice (arr : List α) (start : Nat) : Nat → List α
  | 0 => []
  | n + 1 => arr.getD start default :: readSlice arr (start + 1) n

/-- The main merge loop of `MergeSort::merge`
(`while (i < n1 && j < n2)`), returning the final `(arr, i, j, k)` state. -/
def mergeLoop (comp : α → α → Bool) (left right arr : List α) (i j k : Nat) :
    List α × Nat × Nat × Nat :=
  if h : i < left.length ∧ j < right.length then
    if comp (left.getD i default) (right.getD j default) then
      mergeLoop comp left right (arr.set k (left.getD i default)) (i + 1) j (k + 1)
    else
      mergeLoop comp left right (arr.set k (right.getD j default)) i (j + 1) (k + 1)
  else
    (arr, i, j, k)
termination_by (left.length - i) + (right.length - j)
decreasing_by
  · omega
  · omega

/-- The remainder copy loops of `MergeSort::merge`
(`while (i < n1)` and `while (j < n2)`), returning the final `(arr, k)` state. -/
def copyLoop (src arr : List α) (i k : Nat) : List α × Nat :=
  if h : i < src.length then
    copyLoop src (arr.set k (src.getD i default)) (i + 1) (k + 1)
  else
    (arr, k)
termination_by src.length - i
decreasing_by omega

/-- `MergeSort::merge`: merges the two adjacent runs `[low, mid]` and
`[mid+1, high]` through the temporary buffers `left` and `right`. -/
def merge (comp : α → α → Bool) (arr : List α) (low high mid : Nat) : List α :=
  let n1 := mid - low + 1
  let n2 := high - mid
  let left := readSlice arr low n1
  let right := readSlice arr (mid + 1) n2
  let s := mergeLoop comp left right arr 0 0 low
  let t := copyLoop left s.1 s.2.1 s.2.2.2
  let u := copyLoop right t.1 s.2.2.1 t.2
  u.1

/-- `MergeSort::sortImpl`: the recursive driver over inclusive bounds. -/
def sortImpl (comp : α → α → Bool) (arr : List α) (low high : Nat) : List α :=
  if h : low < high then
    let mid := low + (high - low) / 2
    let a1 := sortImpl comp arr low mid
    let a2 := sortImpl comp a1 (mid + 1) high
    merge comp a2 low high mid
  else
    arr
termination_by high - low
decreasing_by
  · omega
  · omega

/-- `MergeSort::sort(std::vector<T>&, Comparator)`: the sequence-based entry
point.  Its body contains no `throw`, so it always returns `Except.ok`. -/
def sortVec (comp : α → α → Bool) (arr : List α) : Except SortError (List α) :=
  if arr.isEmpty then Except.ok arr
  else Except.ok (sortImpl comp arr 0 (arr.length - 1))

/-- `MergeSort::sort(T*, size_t, Comparator)`: the pointer/length entry point.
The null check precedes the size checks, exactly as in the source. -/
def sortPtr (comp : α → α → Bool) (arr : Option (List α)) (size : Nat) :
    Except SortError (List α) :=
  match arr with
  | none => Except.error SortError.invalidArgument
  | some a =>
    if size = 0 then Except.ok a
    else if size = 1 then Except.ok a
    else Except.ok (sortImpl comp a 0 (size - 1))

/-- The scanning loop of `MergeSort::isSorted`
(`for i in [0, size-1): if (comp(arr[i+1], arr[i]) && !comp(arr[i], arr[i+1])) return false`). -/
def isSortedLoop (comp : α → α → Bool) (a : List α) (size i : Nat) : Bool :=
  if h : i < size - 1 then
    if comp (a.getD (i + 1) default) (a.getD i default) &&
        !comp (a.getD i default) (a.getD (i + 1) default) then
      false
    else
      isSortedLoop comp a size (i + 1)
  else
    true
termination_by size - 1 - i
decreasing_by omega

/-- `MergeSort::isSorted`: returns `true` for a null pointer or `size <= 1`,
otherwise runs the scanning loop. -/
def isSorted (comp : α → α → Bool) (arr : Option (List α)) (size : Nat) : Bool :=
  match arr with
  | none => true
  | some a => if size ≤ 1 then true else isSortedLoop comp a size 0

end MergeSort

/-- Spec-side reference merge: the list-level function computed by the merge
loops of `MergeSort::merge` (left element taken exactly when `comp l r`). -/
def mergeList (comp : α → α → Bool) : List α → List α → List α
  | [], r => r
  | l, [] => l
  | a :: l, b :: r =>
    if comp a b then a :: mergeList comp l (b :: r)
    else b :: mergeList comp (a :: l) r
termination_by l r => l.length + r.length

/-- Spec-side reference sort: top-down merge sort splitting a list of length
`n` after its first `(n - 1) / 2 + 1` elements, the exact split
`sortImpl` performs on the span `[low, high]` at `mid = low + (high - low) / 2`. -/
def msort (comp : α → α → Bool) (l : List α) : List α :=
  if h : l.length ≤ 1 then l
  else
    let n1 := (l.length - 1) / 2 + 1
    mergeList comp (msort comp (l.take n1)) (msort comp (l.drop n1))
termination_by l.length
decreasing_by
  · simp only [List.length_take]
    have h1 : (l.length - 1) / 2 < l.length - 1 := Nat.div_lt_self (by omega) (by omega)
    omega
  · simp only [List.length_drop]
    omega

/-- Proof-side description of a block of consecutive in-place writes:
`listWrite arr k xs` writes the elements of `xs` at positions `k, k+1, ...`. -/
def listWrite (arr : List α) (k : Nat) : List α → List α
  | [] => arr
  | x :: xs => listWrite (arr.set k x) (k + 1) xs

/-- The strict-weak-ordering contract the spec imposes on the comparison
relation: irreflexive, asymmetric, transitive, with transitive incomparability. -/
@[reducible]
def SWO (comp : α → α → Bool) : Prop :=
  (∀ a, comp a a = false) ∧
  (∀ a b, comp a b = true → comp b a = false) ∧
  (∀ a b c, comp a b = true → comp b c = true → comp a c = true) ∧
  (∀ a b c, comp a b = false → comp b a = false → comp b c = false → comp c b = false →
    comp a c = false ∧ comp c a = false)

/-- A strict weak ordering whose incomparable elements are equal
(a strict total order on the values). -/
@[reducible]
def LinearComp (comp : α → α → Bool) : Prop :=
  SWO comp ∧ ∀ a b, comp a b = false → comp b a = false → a = b

/-! ### Basic list bookkeeping lemmas -/

lemma drop_eq_getD_cons (l : List α) (n : Nat) (h : n < l.length) :
    l.drop n = l.getD n default :: l.drop (n + 1) := by
  rw [List.getD_eq_getElem l default h]
  exact List.drop_eq_getElem_cons h

lemma readSlice_eq_take_drop :
    ∀ (n : Nat) (arr : List α) (start : Nat), start + n ≤ arr.length →
      MergeSort.readSlice arr start n = (arr.drop start).take n := by
  intro n
  induction n with
  | zero => intro arr start h; simp [MergeSort.readSlice]
  | succ m ih =>
    intro arr start h
    have hs : start < arr.length := by omega
    rw [MergeSort.readSlice, ih arr (start + 1) (by omega), drop_eq_getD_cons arr start hs]
    simp

lemma readSlice_append (A B C : List α) :
    MergeSort.readSlice (A ++ B ++ C) A.length B.length = B := by
  rw [readSlice_eq_take_drop B.length (A ++ B ++ C) A.length (by simp), List.append_assoc,
    List.drop_left, List.take_left]

lemma set_append_cons (A : List α) (x b : α) (rest : List α) :
    (A ++ b :: rest).set A.length x = A ++ x :: rest := by
  induction A with
  | nil => rfl
  | cons a A ih => simpa [List.set] using ih

lemma listWrite_append :
    ∀ (xs A D C : List α), D.length = xs.length →
      listWrite (A ++ D ++ C) A.length xs = A ++ xs ++ C := by
  intro xs
  induction xs with
  | nil =>
    intro A D C h
    have hD : D = [] := List.length_eq_zero.mp h
    subst hD
    simp [listWrite]
  | cons x xs ih =>
    intro A D C h
    match D with
    | [] => simp at h
    | d :: D' =>
      have h1 : (A ++ (d :: D') ++ C).set A.length x = (A ++ [x]) ++ D' ++ C := by
        rw [List.append_assoc, List.cons_append, set_append_cons]
        simp
      have h2 : (A ++ [x]).length = A.length + 1 := by simp
      calc listWrite (A ++ (d :: D') ++ C) A.length (x :: xs)
          = listWrite ((A ++ [x]) ++ D' ++ C) (A.length + 1) xs := by
            simp only [listWrite, h1]
        _ = listWrite ((A ++ [x]) ++ D' ++ C) (A ++ [x]).length xs := by rw [h2]
        _ = (A ++ [x]) ++ xs ++ C := by
            apply ih
            simpa using h
        _ = A ++ (x :: xs) ++ C := by simp

lemma listWrite_split :
    ∀ (X Y arr : List α) (k : Nat),
      listWrite arr k (X ++ Y) = listWrite (listWrite arr k X) (k + X.length) Y := by
  intro X
  induction X with
  | nil => intro Y arr k; simp [listWrite]
  | cons x X ih =>
    intro Y arr k
    show listWrite (arr.set k x) (k + 1) (X ++ Y)
        = listWrite (listWrite (arr.set k x) (k + 1) X) (k + (x :: X).length) Y
    rw [ih]
    congr 1
    simp only [List.length_cons]
    omega

lemma copyLoop_spec (src : List α) :
    ∀ (n i k : Nat) (arr : List α), src.length - i ≤ n →
      MergeSort.copyLoop src arr i k = (listWrite arr k (src.drop i), k + (src.length - i)) := by
  intro n
  induction n with
  | zero =>
    intro i k arr h
    have hi : ¬ i < src.length := by omega
    rw [MergeSort.copyLoop, dif_neg hi, List.drop_eq_nil_of_le (by omega)]
    simp only [listWrite]
    congr 1
    omega
  | succ m ih =>
    intro i k arr h
    by_cases hi : i < src.length
    · rw [MergeSort.copyLoop, dif_pos hi, ih (i + 1) (k + 1) _ (by omega),
        drop_eq_getD_cons src i hi]
      simp only [listWrite]
      congr 1
      omega
    · rw [MergeSort.copyLoop, dif_neg hi, List.drop_eq_nil_of_le (by omega)]
      simp only [listWrite]
      congr 1
      omega

/-! ### The reference merge: permutation and length facts -/

lemma mergeList_nil_right (comp : α → α → Bool) (l : List α) :
    mergeList comp l [] = l := by
  cases l <;> simp [mergeList]

lemma mergeList_perm (comp : α → α → Bool) :
    ∀ (n : Nat) (l r : List α), l.length + r.length ≤ n →
      List.Perm (mergeList comp l r) (l ++ r) := by
  intro n
  induction n with
  | zero =>
    intro l r h
    match l, r with
    | [], [] => simp [mergeList]
    | [], _ :: _ => simp at h
    | _ :: _, _ => simp at h
  | succ m ih =>
    intro l r h
    match l, r with
    | [], r => simp [mergeList]
    | a :: l, [] => simp [mergeList_nil_right]
    | a :: l, b :: r =>
      rw [mergeList]
      by_cases hc : comp a b
      · rw [if_pos hc]
        exact List.Perm.cons a (ih l (b :: r) (by simp at h ⊢; omega))
      · rw [if_neg hc]
        refine List.Perm.trans (List.Perm.cons b (ih (a :: l) r (by simp at h ⊢; omega))) ?_
        exact List.Perm.trans (List.perm_middle.symm) (List.Perm.refl _)

lemma mergeList_perm' (comp : α → α → Bool) (l r : List α) :
    List.Perm (mergeList comp l r) (l ++ r) :=
  mergeList_perm comp (l.length + r.length) l r (Nat.le_refl _)

lemma mergeList_length (comp : α → α → Bool) (l r : List α) :
    (mergeList comp l r).length = l.length + r.length := by
  have := (mergeList_perm' comp l r).length_eq
  simpa using this

/-! ### The in-place loops compute the reference merge -/

lemma loops_spec (comp : α → α → Bool) (left right : List α) :
    ∀ (n i j k : Nat) (arr : List α),
      (left.length - i) + (right.length - j) ≤ n →
      ∀ s, MergeSort.mergeLoop comp left right arr i j k = s →
      ∀ t, MergeSort.copyLoop left s.1 s.2.1 s.2.2.2 = t →
      (MergeSort.copyLoop right t.1 s.2.2.1 t.2).1
        = listWrite arr k (mergeList comp (left.drop i) (right.drop j)) := by
  intro n
  induction n with
  | zero =>
    intro i j k arr h s hs t ht
    have hg : ¬ (i < left.length ∧ j < right.length) := by omega
    rw [MergeSort.mergeLoop, dif_neg hg] at hs
    subst hs
    rw [MergeSort.copyLoop, dif_neg (by omega : ¬ i < left.length)] at ht
    subst ht
    rw [MergeSort.copyLoop, dif_neg (by omega : ¬ j < right.length)]
    rw [List.drop_eq_nil_of_le (by omega : left.length ≤ i),
      List.drop_eq_nil_of_le (by omega : right.length ≤ j)]
    simp [mergeList, listWrite]
  | succ m ih =>
    intro i j k arr h s hs t ht
    by_cases hg : i < left.length ∧ j < right.length
    · rw [MergeSort.mergeLoop, dif_pos hg] at hs
      by_cases hc : comp (left.getD i default) (right.getD j default)
      · rw [if_pos hc] at hs
        have := ih (i + 1) j (k + 1) (arr.set k (left.getD i default)) (by omega) s hs t ht
        rw [this, drop_eq_getD_cons left i hg.1, drop_eq_getD_cons right j hg.2,
          mergeList, if_pos hc, ← drop_eq_getD_cons right j hg.2]
        simp [listWrite]
      · rw [if_neg hc] at hs
        have := ih i (j + 1) (k + 1) (arr.set k (right.getD j default)) (by omega) s hs t ht
        rw [this, drop_eq_getD_cons left i hg.1, drop_eq_getD_cons right j hg.2,
          mergeList, if_neg hc, ← drop_eq_getD_cons left i hg.1]
        simp [listWrite]
    · rw [MergeSort.mergeLoop, dif_neg hg] at hs
      subst hs
      rw [copyLoop_spec left left.length i k arr (by omega)] at ht
      subst ht
      rw [copyLoop_spec right right.length j (k + (left.length - i))
        (listWrite arr k (left.drop i)) (by omega)]
      have hsplit := listWrite_split (left.drop i) (right.drop j) arr k
      rw [List.length_drop] at hsplit
      rw [← hsplit]
      rcases not_and_or.mp hg with hi | hj
      · rw [List.drop_eq_nil_of_le (by omega : left.length ≤ i)]
        simp [mergeList]
      · rw [List.drop_eq_nil_of_le (by omega : right.length ≤ j)]
        rw [mergeList_nil_right]
        simp

/-- `MergeSort::merge` on a decomposed array `A ++ B1 ++ B2 ++ C`, with
`low`, `mid`, `high` delimiting `B1` and `B2`, replaces the two runs by their
reference merge and touches nothing else. -/
lemma merge_spec (comp : α → α → Bool) (A B1 B2 C : List α) (h1 : B1 ≠ []) :
    MergeSort.merge comp (A ++ B1 ++ B2 ++ C) A.length
      (A.length + B1.length + B2.length - 1) (A.length + B1.length - 1)
      = A ++ mergeList comp B1 B2 ++ C := by
  have hB1 : 0 < B1.length := List.length_pos.mpr h1
  simp only [MergeSort.merge]
  have hn1 : A.length + B1.length - 1 - A.length + 1 = B1.length := by omega
  have hn2 : A.length + B1.length + B2.length - 1 - (A.length + B1.length - 1)
      = B2.length := by omega
  rw [hn1, hn2]
  have hleft : MergeSort.readSlice (A ++ B1 ++ B2 ++ C) A.length B1.length = B1 := by
    have := readSlice_append A B1 (B2 ++ C)
    rwa [← List.append_assoc] at this
  have hmid1 : A.length + B1.length - 1 + 1 = (A ++ B1).length := by
    simp
    omega
  have hright : MergeSort.readSlice (A ++ B1 ++ B2 ++ C) (A.length + B1.length - 1 + 1)
      B2.length = B2 := by
    rw [hmid1]
    exact readSlice_append (A ++ B1) B2 C
  rw [hleft, hright]
  rw [loops_spec comp B1 B2 (B1.length + B2.length) 0 0 A.length (A ++ B1 ++ B2 ++ C)
    (by omega) _ rfl _ rfl]
  rw [List.drop_zero, List.drop_zero]
  have harr : A ++ B1 ++ B2 ++ C = A ++ (B1 ++ B2) ++ C := by
    simp [List.append_assoc]
  rw [harr, listWrite_append (mergeList comp B1 B2) A (B1 ++ B2) C
    (by rw [mergeList_length]; simp)]

/-! ### The reference sort: permutation and sortedness -/

lemma msort_perm (comp : α → α → Bool) :
    ∀ (n : Nat) (l : List α), l.length ≤ n → List.Perm (msort comp l) l := by
  intro n
  induction n with
  | zero =>
    intro l h
    rw [msort, dif_pos (by omega)]
  | succ m ih =>
    intro l h
    by_cases h1 : l.length ≤ 1
    · rw [msort, dif_pos h1]
    · rw [msort, dif_neg h1]
      dsimp only
      have hdiv : (l.length - 1) / 2 < l.length - 1 := Nat.div_lt_self (by omega) (by omega)
      refine List.Perm.trans (mergeList_perm' comp _ _) ?_
      refine List.Perm.trans
        (List.Perm.append (ih _ ?_) (ih _ ?_)) ?_
      · rw [List.length_take]; omega
      · rw [List.length_drop]; omega
      · rw [List.take_append_drop]

lemma msort_perm' (comp : α → α → Bool) (l : List α) : List.Perm (msort comp l) l :=
  msort_perm comp l.length l (Nat.le_refl _)

lemma msort_length (comp : α → α → Bool) (l : List α) :
    (msort comp l).length = l.length :=
  (msort_perm' comp l).length_eq

/-! ### Consequences of the strict-weak-ordering contract -/

lemma swo_not_lt_trans {comp : α → α → Bool} (h : SWO comp) (a b c : α)
    (hba : comp b a = false) (hcb : comp c b = false) : comp c a = false := by
  by_contra hq
  simp only [Bool.not_eq_false] at hq
  have hab : comp a b = false := by
    by_contra hab
    simp only [Bool.not_eq_false] at hab
    have := h.2.2.1 c a b hq hab
    simp [this] at hcb
  have hbc : comp b c = false := by
    by_contra hbc
    simp only [Bool.not_eq_false] at hbc
    have := h.2.2.1 b c a hbc hq
    simp [this] at hba
  have := h.2.2.2 a b c hab hba hbc hcb
  simp [this.2] at hq

lemma mergeList_pairwise (comp : α → α → Bool) (h : SWO comp) :
    ∀ (n : Nat) (l r : List α), l.length + r.length ≤ n →
      List.Pairwise (fun a b => comp b a = false) l →
      List.Pairwise (fun a b => comp b a = false) r →
      List.Pairwise (fun a b => comp b a = false) (mergeList comp l r) := by
  intro n
  induction n with
  | zero =>
    intro l r hn hl hr
    match l, r with
    | [], [] => simpa [mergeList] using List.Pairwise.nil
    | [], _ :: _ => simp at hn
    | _ :: _, _ => simp at hn
  | succ m ih =>
    intro l r hn hl hr
    match l, r with
    | [], r => simpa [mergeList] using hr
    | a :: l, [] => rw [mergeList_nil_right]; exact hl
    | a :: l, b :: r =>
      rw [mergeList]
      rcases List.pairwise_cons.mp hl with ⟨hal, hl'⟩
      rcases List.pairwise_cons.mp hr with ⟨hbr, hr'⟩
      by_cases hc : comp a b
      · rw [if_pos hc]
        refine List.pairwise_cons.mpr ⟨?_, ih l (b :: r) (by simp at hn ⊢; omega) hl' hr⟩
        intro x hx
        have hx' := (mergeList_perm' comp l (b :: r)).mem_iff.mp hx
        rcases List.mem_append.mp hx' with hxl | hxbr
        · exact hal x hxl
        · rcases List.mem_cons.mp hxbr with rfl | hxr
          · exact h.2.1 a x hc
          · have hxb : comp x b = false := hbr x hxr
            by_contra hxa
            simp only [Bool.not_eq_false] at hxa
            have := h.2.2.1 x a b hxa hc
            simp [this] at hxb
      · rw [if_neg hc]
        have hab : comp a b = false := by
          revert hc
          cases comp a b <;> simp
        refine List.pairwise_cons.mpr ⟨?_, ih (a :: l) r (by simp at hn ⊢; omega) hl hr'⟩
        intro x hx
        have hx' := (mergeList_perm' comp (a :: l) r).mem_iff.mp hx
        rcases List.mem_append.mp hx' with hxal | hxr
        · rcases List.mem_cons.mp hxal with rfl | hxl
          · exact hab
          · exact swo_not_lt_trans h b a x hab (hal x hxl)
        · exact hbr x hxr

lemma mergeList_pairwise' (comp : α → α → Bool) (h : SWO comp) (l r : List α)
    (hl : List.Pairwise (fun a b => comp b a = false) l)
    (hr : List.Pairwise (fun a b => comp b a = false) r) :
    List.Pairwise (fun a b => comp b a = false) (mergeList comp l r) :=
  mergeList_pairwise comp h (l.length + r.length) l r (Nat.le_refl _) hl hr

lemma msort_pairwise (comp : α → α → Bool) (h : SWO comp) :
    ∀ (n : Nat) (l : List α), l.length ≤ n →
      List.Pairwise (fun a b => comp b a = false) (msort comp l) := by
  intro n
  induction n with
  | zero =>
    intro l hn
    rw [msort, dif_pos (by omega)]
    match l, (by omega : l.length = 0) with
    | [], _ => exact List.Pairwise.nil
  | succ m ih =>
    intro l hn
    by_cases h1 : l.length ≤ 1
    · rw [msort, dif_pos h1]
      match l, h1 with
      | [], _ => exact List.Pairwise.nil
      | [x], _ => exact List.pairwise_singleton _ x
    · rw [msort, dif_neg h1]
      dsimp only
      have hdiv : (l.length - 1) / 2 < l.length - 1 := Nat.div_lt_self (by omega) (by omega)
      refine mergeList_pairwise' comp h _ _ (ih _ ?_) (ih _ ?_)
      · rw [List.length_take]; omega
      · rw [List.length_drop]; omega

/-! ### `sortImpl` computes the reference sort on a decomposed array -/

lemma sortImpl_spec (comp : α → α → Bool) :
    ∀ (n : Nat) (B A C : List α), B.length ≤ n → B ≠ [] →
      MergeSort.sortImpl comp (A ++ B ++ C) A.length (A.length + B.length - 1)
        = A ++ msort comp B ++ C := by
  intro n
  induction n with
  | zero =>
    intro B A C h hB
    exact absurd (List.length_eq_zero.mp (by omega)) hB
  | succ m ih =>
    intro B A C h hB
    have hB0 : 0 < B.length := List.length_pos.mpr hB
    by_cases h2 : B.length ≤ 1
    · rw [MergeSort.sortImpl, dif_neg (by omega : ¬ A.length < A.length + B.length - 1),
        msort, dif_pos h2]
    · have hlh : A.length < A.length + B.length - 1 := by omega
      have hdiv : (B.length - 1) / 2 < B.length - 1 := Nat.div_lt_self (by omega) (by omega)
      set n1 := (B.length - 1) / 2 + 1 with hn1def
      have hn1a : 1 ≤ n1 := by omega
      have hn1b : n1 < B.length := by omega
      set B1 := B.take n1 with hB1def
      set B2 := B.drop n1 with hB2def
      have hB1len : B1.length = n1 := by rw [hB1def, List.length_take]; omega
      have hB2len : B2.length = B.length - n1 := by rw [hB2def, List.length_drop]
      have hB1ne : B1 ≠ [] := by
        rw [← List.length_pos, hB1len]; omega
      have hB2ne : B2 ≠ [] := by
        rw [← List.length_pos, hB2len]; omega
      have hm1len : (msort comp B1).length = n1 := by rw [msort_length, hB1len]
      have hm2len : (msort comp B2).length = B.length - n1 := by rw [msort_length, hB2len]
      have hsplit : B = B1 ++ B2 := (List.take_append_drop n1 B).symm
      have hunfold : MergeSort.sortImpl comp (A ++ B ++ C) A.length (A.length + B.length - 1)
          = MergeSort.merge comp
              (MergeSort.sortImpl comp
                (MergeSort.sortImpl comp (A ++ B ++ C) A.length
                  (A.length + (A.length + B.length - 1 - A.length) / 2))
                (A.length + (A.length + B.length - 1 - A.length) / 2 + 1)
                (A.length + B.length - 1))
              A.length (A.length + B.length - 1)
              (A.length + (A.length + B.length - 1 - A.length) / 2) := by
        rw [MergeSort.sortImpl, dif_pos hlh]
      have hmid : A.length + (A.length + B.length - 1 - A.length) / 2
          = A.length + B1.length - 1 := by
        have e1 : A.length + B.length - 1 - A.length = B.length - 1 := by omega
        rw [e1, hB1len, hn1def]
        omega
      rw [hunfold, hmid]
      have hrec1 : MergeSort.sortImpl comp (A ++ B ++ C) A.length (A.length + B1.length - 1)
          = A ++ msort comp B1 ++ (B2 ++ C) := by
        have harr : A ++ B ++ C = A ++ B1 ++ (B2 ++ C) := by
          rw [hsplit]
          simp [List.append_assoc]
        rw [harr]
        exact ih B1 A (B2 ++ C) (by omega) hB1ne
      rw [hrec1]
      have hrec2 : MergeSort.sortImpl comp (A ++ msort comp B1 ++ (B2 ++ C))
          (A.length + B1.length - 1 + 1) (A.length + B.length - 1)
          = (A ++ msort comp B1) ++ msort comp B2 ++ C := by
        have harr2 : A ++ msort comp B1 ++ (B2 ++ C) = (A ++ msort comp B1) ++ B2 ++ C := by
          simp [List.append_assoc]
        have hlow2 : A.length + B1.length - 1 + 1 = (A ++ msort comp B1).length := by
          rw [List.length_append, hm1len, hB1len]
          omega
        have hhigh2 : A.length + B.length - 1
            = (A ++ msort comp B1).length + B2.length - 1 := by
          rw [List.length_append, hm1len, hB2len]
          omega
        rw [harr2, hlow2, hhigh2]
        exact ih B2 (A ++ msort comp B1) C (by omega) hB2ne
      rw [hrec2]
      have hmerge : MergeSort.merge comp ((A ++ msort comp B1) ++ msort comp B2 ++ C)
          A.length (A.length + B.length - 1) (A.length + B1.length - 1)
          = A ++ mergeList comp (msort comp B1) (msort comp B2) ++ C := by
        have hm1ne : msort comp B1 ≠ [] := by
          rw [← List.length_pos, hm1len]; omega
        have e2 : A.length + B.length - 1
            = A.length + (msort comp B1).length + (msort comp B2).length - 1 := by
          rw [hm1len, hm2len]; omega
        have e3 : A.length + B1.length - 1 = A.length + (msort comp B1).length - 1 := by
          rw [hm1len, hB1len]
        have e4 : (A ++ msort comp B1) ++ msort comp B2 ++ C
            = A ++ msort comp B1 ++ msort comp B2 ++ C := rfl
        rw [e2, e3, e4]
        exact merge_spec comp A (msort comp B1) (msort comp B2) C hm1ne
      rw [hmerge]
      have hms : msort comp B = mergeList comp (msort comp B1) (msort comp B2) := by
        rw [msort, dif_neg h2]
      rw [hms]

lemma sortImpl_msort (comp : α → α → Bool) (B A C : List α) (hB : B ≠ []) :
    MergeSort.sortImpl comp (A ++ B ++ C) A.length (A.length + B.length - 1)
      = A ++ msort comp B ++ C :=
  sortImpl_spec comp B.length B A C (Nat.le_refl _) hB

/-- The sequence-based entry point always succeeds and computes the
reference sort. -/
lemma sortVec_eq_msort (comp : α → α → Bool) (arr : List α) :
    MergeSort.sortVec comp arr = Except.ok (msort comp arr) := by
  rw [MergeSort.sortVec]
  by_cases he : arr.isEmpty
  · rw [if_pos he]
    have h0 : arr = [] := List.isEmpty_iff.mp he
    subst h0
    rw [msort, dif_pos (by simp)]
  · rw [if_neg he]
    have hne : arr ≠ [] := by
      intro h0
      rw [h0] at he
      simp at he
    have key := sortImpl_msort comp arr [] [] hne
    simpa using key

/-- `sortImpl` on the span `[low, high]` of `arr`: the prefix and suffix are
untouched and the span is replaced by its reference sort. -/
lemma sortImpl_decomp (comp : α → α → Bool) (arr : List α) (low high : Nat)
    (h1 : low ≤ high) (h2 : high < arr.length) :
    MergeSort.sortImpl comp arr low high
      = arr.take low ++ msort comp ((arr.drop low).take (high + 1 - low))
          ++ arr.drop (high + 1) := by
  have hA : (arr.take low).length = low := by rw [List.length_take]; omega
  have hBlen : ((arr.drop low).take (high + 1 - low)).length = high + 1 - low := by
    rw [List.length_take, List.length_drop]; omega
  have hBne : (arr.drop low).take (high + 1 - low) ≠ [] := by
    rw [← List.length_pos, hBlen]; omega
  have hsp : arr = arr.take low ++ (arr.drop low).take (high + 1 - low)
      ++ arr.drop (high + 1) := by
    rw [List.append_assoc]
    conv_lhs => rw [← List.take_append_drop low arr]
    congr 1
    conv_lhs => rw [← List.take_append_drop (high + 1 - low) (arr.drop low)]
    congr 1
    rw [List.drop_drop]
    congr 1
    omega
  have key := sortImpl_msort comp ((arr.drop low).take (high + 1 - low)) (arr.take low)
    (arr.drop (high + 1)) hBne
  rw [hA, hBlen] at key
  have harith : low + (high + 1 - low) - 1 = high := by omega
  rw [harith, ← hsp] at key
  exact key

/-! ### The `isSorted` scan under an asymmetric relation -/

lemma isSortedLoop_iff (comp : α → α → Bool)
    (hasym : ∀ a b, comp a b = true → comp b a = false) (a : List α) (size : Nat) :
    ∀ (m i : Nat), size - 1 - i ≤ m →
      (MergeSort.isSortedLoop comp a size i = true ↔
        ∀ t, i ≤ t → t + 1 < size →
          comp (a.getD (t + 1) default) (a.getD t default) = false) := by
  intro m
  induction m with
  | zero =>
    intro i h
    rw [MergeSort.isSortedLoop, dif_neg (by omega : ¬ i < size - 1)]
    constructor
    · intro _ t ht hts
      exact absurd hts (by omega)
    · intro _
      rfl
  | succ m ih =>
    intro i h
    by_cases hi : i < size - 1
    · rw [MergeSort.isSortedLoop, dif_pos hi]
      by_cases hc : comp (a.getD (i + 1) default) (a.getD i default)
      · have hrev : comp (a.getD i default) (a.getD (i + 1) default) = false :=
          hasym _ _ hc
        rw [if_pos (by rw [hc, hrev]; rfl)]
        constructor
        · intro hfalse
          exact absurd hfalse (by simp)
        · intro hall
          have := hall i (Nat.le_refl i) (by omega)
          rw [hc] at this
          exact Bool.noConfusion this
      · have hc' : comp (a.getD (i + 1) default) (a.getD i default) = false := by
          revert hc
          cases comp (a.getD (i + 1) default) (a.getD i default) <;> simp
        rw [if_neg (by rw [hc']; simp), ih (i + 1) (by omega)]
        constructor
        · intro hall t ht hts
          rcases Nat.eq_or_lt_of_le ht with rfl | hlt
          · exact hc'
          · exact hall t (by omega) hts
        · intro hall t ht hts
          exact hall t (by omega) hts
    · rw [MergeSort.isSortedLoop, dif_neg hi]
      constructor
      · intro _ t ht hts
        exact absurd hts (by omega)
      · intro _
        rfl

lemma isSorted_iff (comp : α → α → Bool)
    (hasym : ∀ a b, comp a b = true → comp b a = false) (a : List α) (size : Nat) :
    MergeSort.isSorted comp (some a) size = true ↔
      ∀ t, t + 1 < size →
        comp (a.getD (t + 1) default) (a.getD t default) = false := by
  show (if size ≤ 1 then true else MergeSort.isSortedLoop comp a size 0) = true ↔ _
  by_cases h1 : size ≤ 1
  · rw [if_pos h1]
    constructor
    · intro _ t ht
      exact absurd ht (by omega)
    · intro _
      rfl
  · rw [if_neg h1, isSortedLoop_iff comp hasym a size (size - 1 - 0) 0 (Nat.le_refl _)]
    constructor
    · intro hall t ht
      exact hall t (Nat.zero_le t) ht
    · intro hall t _ ht
      exact hall t ht

/-! ### Pairwise sortedness versus the adjacent no-inversion predicate -/

lemma pairwise_noInversion {comp : α → α → Bool} {out : List α}
    (h : List.Pairwise (fun a b => comp b a = false) out) :
    ∀ t, t + 1 < out.length →
      comp (out.getD (t + 1) default) (out.getD t default) = false := by
  intro t ht
  have h1 : t < out.length := by omega
  rw [List.getD_eq_getElem out default ht, List.getD_eq_getElem out default h1]
  exact (List.pairwise_iff_getElem.mp h) t (t + 1) h1 ht (by omega)

lemma pairwise_of_noInversion {comp : α → α → Bool} (x : List α)
    (htr : ∀ a b c, comp b a = false → comp c b = false → comp c a = false)
    (hni : ∀ t, t + 1 < x.length →
      comp (x.getD (t + 1) default) (x.getD t default) = false) :
    List.Pairwise (fun a b => comp b a = false) x := by
  have key : ∀ (d i : Nat), i + d + 1 < x.length →
      comp (x.getD (i + d + 1) default) (x.getD i default) = false := by
    intro d
    induction d with
    | zero =>
      intro i hj
      exact hni i hj
    | succ e ihe =>
      intro i hj
      have h1 : comp (x.getD (i + e + 1) default) (x.getD i default) = false :=
        ihe i (by omega)
      have h2 : comp (x.getD (i + e + 1 + 1) default)
          (x.getD (i + e + 1) default) = false := hni (i + e + 1) (by omega)
      exact htr _ _ _ h1 h2
  rw [List.pairwise_iff_getElem]
  intro i j hi hj hij
  have hk := key (j - i - 1) i (by omega)
  rw [(by omega : i + (j - i - 1) + 1 = j)] at hk
  rw [List.getD_eq_getElem x default hj, List.getD_eq_getElem x default hi] at hk
  exact hk

lemma sorted_perm_eq {comp : α → α → Bool} (hlin : LinearComp comp) {l1 l2 : List α}
    (hp : List.Perm l1 l2)
    (h1 : List.Pairwise (fun a b => comp b a = false) l1)
    (h2 : List.Pairwise (fun a b => comp b a = false) l2) : l1 = l2 := by
  haveI : IsAntisymm α (fun a b => comp b a = false) :=
    ⟨fun a b hab hba => hlin.2 a b hba hab⟩
  exact List.eq_of_perm_of_sorted hp h1 h2

/-! ### Claims -/

/-- Claim C1: for every input sequence and every comparison relation that forms
a strict weak ordering, the sequence-based `sort` succeeds and its result
passes `isSorted`, and no adjacent pair `(i, i+1)` of the result has
`comp (element (i+1)) (element i)` true. -/
theorem sort_sorted_of_swo (comp : α → α → Bool) (arr : List α) (h : SWO comp) :
    ∃ out, MergeSort.sortVec comp arr = Except.ok out ∧
      MergeSort.isSorted comp (some out) out.length = true ∧
      ∀ i, i + 1 < out.length →
        comp (out.getD (i + 1) default) (out.getD i default) = false := by
  refine ⟨msort comp arr, sortVec_eq_msort comp arr, ?_, ?_⟩
  · rw [isSorted_iff comp h.2.1]
    exact pairwise_noInversion (msort_pairwise comp h arr.length arr (Nat.le_refl _))
  · exact pairwise_noInversion (msort_pairwise comp h arr.length arr (Nat.le_refl _))

/-- Witness for `sort_sorted_of_swo` at a concrete ordering and sequence. -/
theorem sort_sorted_of_swo_witness :
    ∃ out, MergeSort.sortVec (fun a b : Bool => !a && b) [true, false] = Except.ok out ∧
      MergeSort.isSorted (fun a b : Bool => !a && b) (some out) out.length = true ∧
      ∀ i, i + 1 < out.length →
        (fun a b : Bool => !a && b) (out.getD (i + 1) default)
          (out.getD i default) = false :=
  sort_sorted_of_swo (fun a b : Bool => !a && b) [true, false] (by decide)

/-- Claim C2: for every comparator, the sequence-based `sort` succeeds and
preserves the multiset of elements; in particular the length is unchanged. -/
theorem sort_perm_invariant (comp : α → α → Bool) (arr : List α) :
    ∃ out, MergeSort.sortVec comp arr = Except.ok out ∧
      (↑out : Multiset α) = (↑arr : Multiset α) ∧ out.length = arr.length := by
  refine ⟨msort comp arr, sortVec_eq_msort comp arr, ?_, msort_length comp arr⟩
  exact Multiset.coe_eq_coe.mpr (msort_perm' comp arr)

/-- Claim C3 counterexample: under the strict weak ordering that makes all
Booleans compare equal, `false` precedes `true` in the input and the two
elements compare equal, yet `sort` emits `true` first: the left element is not
emitted first on a tie, and stability fails. -/
theorem sort_tie_cex :
    SWO (fun _ _ : Bool => false) ∧
    MergeSort.sortVec (fun _ _ : Bool => false) [false, true]
      = Except.ok [true, false] := by
  constructor
  · decide
  · simp [MergeSort.sortVec, MergeSort.sortImpl, MergeSort.merge, MergeSort.mergeLoop,
      MergeSort.copyLoop, MergeSort.readSlice, List.set]

/-- Claim C3 (amended): in the merge step, whenever the current left-buffer
front and right-buffer front satisfy `comp left right = false` — in particular
whenever the two compare equal — the RIGHT element is written first. -/
theorem merge_tie_emits_right (comp : α → α → Bool) (arr : List α) (low mid high : Nat)
    (h1 : low ≤ mid) (h2 : mid < high) (h3 : high < arr.length)
    (hc : comp (arr.getD low default) (arr.getD (mid + 1) default) = false) :
    (MergeSort.merge comp arr low high mid).getD low default
      = arr.getD (mid + 1) default := by
  have hA : (arr.take low).length = low := by rw [List.length_take]; omega
  have hB1len : ((arr.drop low).take (mid + 1 - low)).length = mid + 1 - low := by
    rw [List.length_take, List.length_drop]; omega
  have hB2len : ((arr.drop (mid + 1)).take (high - mid)).length = high - mid := by
    rw [List.length_take, List.length_drop]; omega
  have e2 : arr.drop low
      = (arr.drop low).take (mid + 1 - low) ++ arr.drop (mid + 1) := by
    conv_lhs => rw [← List.take_append_drop (mid + 1 - low) (arr.drop low)]
    congr 1
    rw [List.drop_drop]
    congr 1
    omega
  have e3 : arr.drop (mid + 1)
      = (arr.drop (mid + 1)).take (high - mid) ++ arr.drop (high + 1) := by
    conv_lhs => rw [← List.take_append_drop (high - mid) (arr.drop (mid + 1))]
    congr 1
    rw [List.drop_drop]
    congr 1
    omega
  have hsp : arr = arr.take low ++ (arr.drop low).take (mid + 1 - low)
      ++ (arr.drop (mid + 1)).take (high - mid) ++ arr.drop (high + 1) := by
    conv_lhs => rw [← List.take_append_drop low arr, e2, e3]
    simp [List.append_assoc]
  have hkey := merge_spec comp (arr.take low) ((arr.drop low).take (mid + 1 - low))
    ((arr.drop (mid + 1)).take (high - mid)) (arr.drop (high + 1))
    (by rw [← List.length_pos, hB1len]; omega)
  rw [hA, hB1len, hB2len] at hkey
  rw [(by omega : low + (mid + 1 - low) + (high - mid) - 1 = high),
    (by omega : low + (mid + 1 - low) - 1 = mid), ← hsp] at hkey
  rw [hkey]
  have hhead1 : (arr.drop low).take (mid + 1 - low)
      = arr.getD low default :: (arr.drop (low + 1)).take (mid - low) := by
    rw [drop_eq_getD_cons arr low (by omega), (by omega : mid + 1 - low = (mid - low) + 1),
      List.take_succ_cons]
  have hhead2 : (arr.drop (mid + 1)).take (high - mid)
      = arr.getD (mid + 1) default :: (arr.drop (mid + 1 + 1)).take (high - mid - 1) := by
    rw [drop_eq_getD_cons arr (mid + 1) (by omega)]
    conv_lhs => rw [(by omega : high - mid = (high - mid - 1) + 1)]
    rw [List.take_succ_cons]
  rw [hhead1, hhead2, mergeList, if_neg (by rw [hc]; simp)]
  rw [List.getD_append _ _ _ _ (by simp; omega),
    List.getD_append_right _ _ _ _ (by rw [hA]),
    hA, Nat.sub_self]
  rfl

/-- Witness for `merge_tie_emits_right` at a concrete tie. -/
theorem merge_tie_emits_right_witness :
    (MergeSort.merge (fun _ _ : Bool => false) [false, true] 0 1 0).getD 0 default
      = [false, true].getD (0 + 1) default :=
  merge_tie_emits_right (fun _ _ : Bool => false) [false, true] 0 0 1
    (by decide) (by decide) (by decide) (by decide)

/-- Claim C4 counterexample: with the (non-asymmetric) relation that is
constantly true, `isSorted` returns `true` on `[0, 1]` of length 2 although the
adjacent pair is an inversion under the relation, so the claimed
if-and-only-if fails for general comparators. -/
theorem isSorted_single_comparison_cex :
    MergeSort.isSorted (fun _ _ : Nat => true) (some [0, 1]) 2 = true ∧
    ¬ (∀ t, t + 1 < 2 →
        (fun _ _ : Nat => true) ([0, 1].getD (t + 1) default) ([0, 1].getD t default)
          = false) := by
  constructor
  · simp [MergeSort.isSorted, MergeSort.isSortedLoop]
  · intro hall
    have := hall 0 (by omega)
    simp at this

/-- Claim C4 (amended): restricted to asymmetric comparators — which every
strict weak ordering is — `isSorted` returns true for a null pointer and for
`size ≤ 1`, and otherwise returns true if and only if no adjacent pair
`(t, t+1)` with `t + 1 < size` is an inversion under the relation. -/
theorem isSorted_spec (comp : α → α → Bool)
    (hasym : ∀ a b, comp a b = true → comp b a = false) (a : List α) (size : Nat) :
    MergeSort.isSorted comp none size = true ∧
    (size ≤ 1 → MergeSort.isSorted comp (some a) size = true) ∧
    (MergeSort.isSorted comp (some a) size = true ↔
      ∀ t, t + 1 < size →
        comp (a.getD (t + 1) default) (a.getD t default) = false) := by
  refine ⟨rfl, ?_, isSorted_iff comp hasym a size⟩
  intro h1
  show (if size ≤ 1 then true else MergeSort.isSortedLoop comp a size 0) = true
  rw [if_pos h1]

/-- Witness for `isSorted_spec` at a concrete ordering, sequence and length. -/
theorem isSorted_spec_witness :
    MergeSort.isSorted (fun a b : Bool => !a && b) none 2 = true ∧
    (2 ≤ 1 → MergeSort.isSorted (fun a b : Bool => !a && b) (some [true, false]) 2 = true) ∧
    (MergeSort.isSorted (fun a b : Bool => !a && b) (some [true, false]) 2 = true ↔
      ∀ t, t + 1 < 2 →
        (fun a b : Bool => !a && b) ([true, false].getD (t + 1) default)
          ([true, false].getD t default) = false) :=
  isSorted_spec (fun a b : Bool => !a && b) (by decide) [true, false] 2

/-- Claim C5 counterexample: the null check precedes the size checks, so the
pointer/length overload raises `InvalidArgument` even for a null pointer with
length 0, where the claim demands an error-free no-op. -/
theorem sortPtr_null_zero_cex :
    MergeSort.sortPtr (fun a b : Nat => decide (a < b)) none 0
      = Except.error SortError.invalidArgument := rfl

/-- Claim C5 (amended): the pointer/length overload raises `InvalidArgument`
for a null pointer at every length, including length 0; for a non-null
pointer, length 0 or 1 is a no-op returning the sequence unchanged (the
recursive driver is never entered). -/
theorem sortPtr_guard (comp : α → α → Bool) (size : Nat) (a : List α) :
    MergeSort.sortPtr comp none size = Except.error SortError.invalidArgument ∧
    MergeSort.sortPtr comp (some a) 0 = Except.ok a ∧
    MergeSort.sortPtr comp (some a) 1 = Except.ok a :=
  ⟨rfl, rfl, rfl⟩

/-- Claim C10: for every array, length and asymmetric comparator, the
implemented double-comparison sortedness check returns the same truth value as
the single-comparison no-inversion predicate of the spec. -/
theorem isSorted_double_single_equiv (comp : α → α → Bool)
    (hasym : ∀ a b, comp a b = true → comp b a = false) (a : List α) (size : Nat) :
    MergeSort.isSorted comp (some a) size = true ↔
      ∀ t < size - 1, comp (a.getD (t + 1) default) (a.getD t default) = false := by
  rw [isSorted_iff comp hasym a size]
  constructor
  · intro hall t ht
    exact hall t (by omega)
  · intro hall t ht
    exact hall t (by omega)

/-- Witness for `isSorted_double_single_equiv` at a concrete instance. -/
theorem isSorted_double_single_equiv_witness :
    MergeSort.isSorted (fun a b : Bool => !a && b) (some [false, true]) 2 = true ↔
      ∀ t < 2 - 1,
        (fun a b : Bool => !a && b) ([false, true].getD (t + 1) default)
          ([false, true].getD t default) = false :=
  isSorted_double_single_equiv (fun a b : Bool => !a && b) (by decide) [false, true] 2

/-- Claim C6 counterexample: under the strict weak ordering that makes all
Booleans compare equal, `[false, true]` is already sorted (`isSorted` is true
and there is no adjacent inversion), yet `sort` changes it, and sorting the
result again gives back the original: `sort (sort x) ≠ sort x`. -/
theorem sort_not_idempotent_cex :
    SWO (fun _ _ : Bool => false) ∧
    MergeSort.isSorted (fun _ _ : Bool => false) (some [false, true]) 2 = true ∧
    MergeSort.sortVec (fun _ _ : Bool => false) [false, true]
      = Except.ok [true, false] ∧
    MergeSort.sortVec (fun _ _ : Bool => false) [true, false]
      = Except.ok [false, true] := by
  refine ⟨by decide, by simp [MergeSort.isSorted, MergeSort.isSortedLoop], ?_, ?_⟩
  · simp [MergeSort.sortVec, MergeSort.sortImpl, MergeSort.merge, MergeSort.mergeLoop,
      MergeSort.copyLoop, MergeSort.readSlice, List.set]
  · simp [MergeSort.sortVec, MergeSort.sortImpl, MergeSort.merge, MergeSort.mergeLoop,
      MergeSort.copyLoop, MergeSort.readSlice, List.set]

/-- Claim C6 (amended): restricted to relations whose incomparable elements
are equal (strict total orders on the values), sorting an already-sorted
sequence returns it unchanged and `sort` is idempotent; for general strict
weak orderings with distinguishable ties the original claim fails. -/
theorem sort_idempotent_of_linear (comp : α → α → Bool) (h : LinearComp comp) :
    (∀ x : List α,
      (∀ t, t + 1 < x.length →
        comp (x.getD (t + 1) default) (x.getD t default) = false) →
      MergeSort.sortVec comp x = Except.ok x) ∧
    (∀ x : List α, ∃ out, MergeSort.sortVec comp x = Except.ok out ∧
      MergeSort.sortVec comp out = Except.ok out) := by
  have htr : ∀ a b c, comp b a = false → comp c b = false → comp c a = false :=
    fun a b c => swo_not_lt_trans h.1 a b c
  have hfix : ∀ x : List α,
      (∀ t, t + 1 < x.length →
        comp (x.getD (t + 1) default) (x.getD t default) = false) →
      msort comp x = x := by
    intro x hni
    exact sorted_perm_eq h (msort_perm' comp x)
      (msort_pairwise comp h.1 x.length x (Nat.le_refl _))
      (pairwise_of_noInversion x htr hni)
  constructor
  · intro x hni
    rw [sortVec_eq_msort, hfix x hni]
  · intro x
    refine ⟨msort comp x, sortVec_eq_msort comp x, ?_⟩
    rw [sortVec_eq_msort,
      hfix (msort comp x)
        (pairwise_noInversion (msort_pairwise comp h.1 x.length x (Nat.le_refl _)))]

/-- Witness for `sort_idempotent_of_linear` at a concrete strict total order. -/
theorem sort_idempotent_of_linear_witness :
    (∀ x : List Bool,
      (∀ t, t + 1 < x.length →
        (fun a b : Bool => !a && b) (x.getD (t + 1) default)
          (x.getD t default) = false) →
      MergeSort.sortVec (fun a b : Bool => !a && b) x = Except.ok x) ∧
    (∀ x : List Bool, ∃ out,
      MergeSort.sortVec (fun a b : Bool => !a && b) x = Except.ok out ∧
      MergeSort.sortVec (fun a b : Bool => !a && b) out = Except.ok out) :=
  sort_idempotent_of_linear (fun a b : Bool => !a && b) (by decide)

/-- Claim C7: the sequence-based entry point maps the empty sequence and any
singleton to themselves unchanged, and succeeds — never raising
`InvalidArgument` or any other error — on every input sequence. -/
theorem sortVec_noop_total (comp : α → α → Bool) (v : α) :
    MergeSort.sortVec comp ([] : List α) = Except.ok [] ∧
    MergeSort.sortVec comp [v] = Except.ok [v] ∧
    ∀ arr : List α, ∃ out, MergeSort.sortVec comp arr = Except.ok out := by
  refine ⟨rfl, ?_, fun arr => ⟨msort comp arr, sortVec_eq_msort comp arr⟩⟩
  rw [sortVec_eq_msort, msort, dif_pos (by simp)]

/-- Claim C8: for every comparator — strict weak ordering or not — the
recursive driver is a total function on every span (the recursion reaches its
base case), preserves the length of the array, leaves the prefix before `low`
and the suffix after `high` untouched, and fills `[low, high]` with a
permutation of its previous contents: all reads and writes stay inside the
bounds. -/
theorem sortImpl_safe (comp : α → α → Bool) (arr : List α) (low high : Nat)
    (h1 : low ≤ high) (h2 : high < arr.length) :
    (MergeSort.sortImpl comp arr low high).length = arr.length ∧
    (MergeSort.sortImpl comp arr low high).take low = arr.take low ∧
    (MergeSort.sortImpl comp arr low high).drop (high + 1) = arr.drop (high + 1) ∧
    List.Perm (((MergeSort.sortImpl comp arr low high).drop low).take (high + 1 - low))
      ((arr.drop low).take (high + 1 - low)) := by
  have hd := sortImpl_decomp comp arr low high h1 h2
  have hA : (arr.take low).length = low := by rw [List.length_take]; omega
  have hBlen : ((arr.drop low).take (high + 1 - low)).length = high + 1 - low := by
    rw [List.length_take, List.length_drop]; omega
  have hmlen : (msort comp ((arr.drop low).take (high + 1 - low))).length
      = high + 1 - low := by rw [msort_length, hBlen]
  refine ⟨?_, ?_, ?_, ?_⟩
  · rw [hd]
    simp only [List.length_append, hA, hmlen, List.length_drop]
    omega
  · rw [hd]
    have hkey := List.take_left (arr.take low)
      (msort comp ((arr.drop low).take (high + 1 - low)) ++ arr.drop (high + 1))
    rw [hA] at hkey
    rw [List.append_assoc]
    exact hkey
  · rw [hd]
    have hkey := List.drop_left
      (arr.take low ++ msort comp ((arr.drop low).take (high + 1 - low)))
      (arr.drop (high + 1))
    rw [List.length_append, hA, hmlen, (by omega : low + (high + 1 - low) = high + 1)]
      at hkey
    exact hkey
  · rw [hd]
    have hdrop := List.drop_left (arr.take low)
      (msort comp ((arr.drop low).take (high + 1 - low)) ++ arr.drop (high + 1))
    rw [hA] at hdrop
    have htake := List.take_left (msort comp ((arr.drop low).take (high + 1 - low)))
      (arr.drop (high + 1))
    rw [hmlen] at htake
    rw [List.append_assoc, hdrop, htake]
    exact msort_perm' comp _

/-- Witness for `sortImpl_safe` at a concrete comparator that is not a strict
weak ordering. -/
theorem sortImpl_safe_witness :
    (MergeSort.sortImpl (fun _ _ : Bool => true) [false, true, true] 0 1).length
      = [false, true, true].length ∧
    (MergeSort.sortImpl (fun _ _ : Bool => true) [false, true, true] 0 1).take 0
      = [false, true, true].take 0 ∧
    (MergeSort.sortImpl (fun _ _ : Bool => true) [false, true, true] 0 1).drop (1 + 1)
      = [false, true, true].drop (1 + 1) ∧
    List.Perm
      (((MergeSort.sortImpl (fun _ _ : Bool => true) [false, true, true] 0 1).drop 0).take
        (1 + 1 - 0))
      (([false, true, true].drop 0).take (1 + 1 - 0)) :=
  sortImpl_safe (fun _ _ : Bool => true) [false, true, true] 0 1 (by decide) (by decide)

/-- Claim C9: frame property of the recursive driver — every element at an
index outside the inclusive range `[low, high]` keeps exactly its original
value, for every comparator. -/
theorem sortImpl_frame (comp : α → α → Bool) (arr : List α) (low high idx : Nat)
    (h1 : low ≤ high) (h2 : high < arr.length) (h3 : idx < low ∨ high < idx) :
    (MergeSort.sortImpl comp arr low high).getD idx default
      = arr.getD idx default := by
  have hd := sortImpl_decomp comp arr low high h1 h2
  have hA : (arr.take low).length = low := by rw [List.length_take]; omega
  have hBlen : ((arr.drop low).take (high + 1 - low)).length = high + 1 - low := by
    rw [List.length_take, List.length_drop]; omega
  have hmlen : (msort comp ((arr.drop low).take (high + 1 - low))).length
      = high + 1 - low := by rw [msort_length, hBlen]
  rw [hd]
  rcases h3 with hlt | hgt
  · conv_lhs => rw [List.append_assoc]
    rw [List.getD_append _ _ _ _ (by rw [hA]; omega)]
    conv_rhs => rw [← List.take_append_drop low arr]
    rw [List.getD_append _ _ _ _ (by rw [hA]; omega)]
  · have hlen2 : (arr.take low
        ++ msort comp ((arr.drop low).take (high + 1 - low))).length = high + 1 := by
      rw [List.length_append, hA, hmlen]
      omega
    rw [List.getD_append_right _ _ _ _ (by rw [hlen2]; omega), hlen2]
    conv_rhs => rw [← List.take_append_drop (high + 1) arr]
    rw [List.getD_append_right _ _ _ _
      (by rw [List.length_take]; omega : (arr.take (high + 1)).length ≤ idx)]
    rw [(by rw [List.length_take]; omega : (arr.take (high + 1)).length = high + 1)]

/-- Witness for `sortImpl_frame` at a concrete comparator and index. -/
theorem sortImpl_frame_witness :
    (MergeSort.sortImpl (fun _ _ : Bool => true) [false, true, true] 0 1).getD 2 default
      = [false, true, true].getD 2 default :=
  sortImpl_frame (fun _ _ : Bool => true) [false, true, true] 0 1 2 (by decide) (by decide)
    (Or.inr (by decide))

end Sorting
